import Mathlib

/-!
Verification development for the KisaanPragati top-10 demand engine
(`compute_top10_demand.py`).  The core pipeline `compute_top10` is embedded
shallowly: Python floats become rationals, optional floats become `Option ℚ`,
dicts (which preserve insertion order) become association lists, and the
threshold dict (only read by key) becomes a lookup function.  Sample counts are
non-negative integers per the data model, hence `Nat`.
-/

namespace KisaanPragati

/-- Observation Entry as supplied by the Record Loader for one canonical key:
original display name, optional average value, sample count. -/
structure Entry where
  name : String
  avg  : Option ℚ
  cnt  : Nat
deriving DecidableEq, Repr

/-- Merged demand record: the value stored in the `merged` / `final_merged`
dicts of the source, a tuple `(chosen_name, avg, count)`. -/
structure MRec where
  name : String
  avg  : Option ℚ
  cnt  : Nat
deriving DecidableEq, Repr

/-- Ranked result tuple `(orig_name, avg, threshold)` appended to `matched`. -/
structure Ranked where
  name : String
  obs  : ℚ
  thr  : ℚ
deriving DecidableEq, Repr

/-- One iteration of the accumulation loop of `compute_top10`
(source lines 71-80) over the state `(total_weighted, total_count, chosen_name)`:
an absent average contributes nothing; a present average with zero count is
treated as a single sample (weight 1, name unchanged); a present average with
positive count contributes `avg * cnt` and `cnt` and updates the chosen name. -/
def aggStep (acc : ℚ × Nat × String) (e : Entry) : ℚ × Nat × String :=
  match e.avg with
  | none => acc
  | some a =>
    if e.cnt = 0 then (acc.1 + a, acc.2.1 + 1, acc.2.2)
    else (acc.1 + a * (e.cnt : ℚ), acc.2.1 + e.cnt, e.name)

/-- Aggregation of all entries sharing one canonical key (source lines 67-91).
When the accumulated count is positive the record is the weighted mean; else
the source falls back to the first entry with a present average (its weight
`cnt or 0` being just `cnt` for a natural number); if there is none, the key
produces no record.  The source never receives an empty entry list (the loader
builds the lists by appending), so the `[]` branch is arbitrary. -/
def aggregateKey (entries : List Entry) : Option MRec :=
  match entries with
  | [] => none
  | e0 :: _ =>
    let acc := entries.foldl aggStep (0, 0, e0.name)
    if 0 < acc.2.1 then
      some ⟨acc.2.2, some (acc.1 / (acc.2.1 : ℚ)), acc.2.1⟩
    else
      match entries.find? (fun e => e.avg.isSome) with
      | some e => some ⟨e.name, e.avg, e.cnt⟩
      | none => none

/-- The `merged` dict (source lines 65-91): per-key aggregation in the
iteration order of `day`, keys with no record omitted. -/
def aggregate (day : List (String × List Entry)) : List (String × MRec) :=
  day.filterMap fun ke => (aggregateKey ke.2).map fun r => (ke.1, r)

/-- Ascending insertion of a character into a sorted character list. -/
def insChar (c : Char) : List Char → List Char
  | [] => [c]
  | d :: ds => if d ≤ c then d :: insChar c ds else c :: d :: ds

/-- The equivalence signature of a key: its characters in ascending order,
modelling the Python expression sorting the characters of the key
(source line 97). -/
def sortStr (s : String) : List Char :=
  s.data.foldl (fun acc c => insChar c acc) []

/-- Merge of a new record into the pre-existing group representative
(source lines 104-112).  When the combined count is positive, the new average
is the weighted mean with an absent (or any falsy) average read as `0`; when
both counts are zero, Python evaluates `prev_avg or avg`, which keeps the
previous average only when it is present and nonzero.  The display name always
stays the previous representative's. -/
def mergeRecs (prev r : MRec) : MRec :=
  let total := prev.cnt + r.cnt
  if 0 < total then
    ⟨prev.name,
      some (((prev.avg.getD 0) * (prev.cnt : ℚ) + (r.avg.getD 0) * (r.cnt : ℚ)) / (total : ℚ)),
      total⟩
  else
    ⟨prev.name, if prev.avg.getD 0 = 0 then r.avg else prev.avg, total⟩

/-- In-place update of the value stored under a key of the dict, keeping the
dict's iteration order. -/
def updateAssoc (g : List (String × MRec)) (k : String) (r : MRec) :
    List (String × MRec) :=
  g.map fun kr => if kr.1 = k then (k, r) else kr

/-- One iteration of the anagram-deduplication loop (source lines 96-114):
scan the existing group keys in insertion order for one with the same sorted
character signature; fold into it if found, otherwise open a new group. -/
def mergeInto (g : List (String × MRec)) (key : String) (r : MRec) :
    List (String × MRec) :=
  match g.find? (fun kr => sortStr kr.1 == sortStr key) with
  | some kr => updateAssoc g kr.1 (mergeRecs kr.2 r)
  | none => g ++ [(key, r)]

/-- The `final_merged` dict (source lines 95-114). -/
def finalMerge (l : List (String × MRec)) : List (String × MRec) :=
  l.foldl (fun g kr => mergeInto g kr.1 kr.2) []

/-- One iteration of the threshold-matching loop (source lines 117-124):
skip a record with an absent average, skip a record whose dict key has no
threshold, and append `(orig_name, avg, threshold)` when `avg >= threshold`. -/
def matchStep (peak : String → Option ℚ) (acc : List Ranked)
    (kr : String × MRec) : List Ranked :=
  match kr.2.avg with
  | none => acc
  | some a =>
    match peak kr.1 with
    | none => acc
    | some t => if t ≤ a then acc ++ [⟨kr.2.name, a, t⟩] else acc

/-- The `matched` list (source lines 116-124). -/
def matchedOf (fm : List (String × MRec)) (peak : String → Option ℚ) :
    List Ranked :=
  fm.foldl (matchStep peak) []

/-- Insertion of a ranked result into a descending-sorted list, after every
element whose observed value is at least its own: this is the unique placement
realising a stable descending sort. -/
def insertDesc (e : Ranked) : List Ranked → List Ranked
  | [] => [e]
  | x :: xs => if e.obs ≤ x.obs then x :: insertDesc e xs else e :: x :: xs

/-- Left-to-right insertion pass of the stable descending sort. -/
def sortAux (acc : List Ranked) : List Ranked → List Ranked
  | [] => acc
  | e :: es => sortAux (insertDesc e acc) es

/-- Model of the Python stable in-place sort by the observed value, descending
(source line 127): a stable sort is uniquely determined by its comparison key
and stability, so any stable algorithm embeds it faithfully. -/
def sortDesc (l : List Ranked) : List Ranked :=
  sortAux [] l

/-- The core engine `compute_top10` (source lines 61-128) from the two loaded
tables to the ranked top-10 list. -/
def computeTop10 (day : List (String × List Entry))
    (peak : String → Option ℚ) : List Ranked :=
  (sortDesc (matchedOf (finalMerge (aggregate day)) peak)).take 10

/-- Contribution of a single Observation Entry to the weighted sum and weight
total, written from the spec's wording (section 4.2 of the spec). -/
def specContrib (e : Entry) : ℚ × Nat :=
  match e.avg with
  | none => (0, 0)
  | some a => if e.cnt = 0 then (a, 1) else (a * (e.cnt : ℚ), e.cnt)

/-- The spec's running weighted sum over a list of entries. -/
def specWeightedSum (entries : List Entry) : ℚ :=
  (entries.map fun e => (specContrib e).1).sum

/-- The spec's running weight total over a list of entries. -/
def specWeightTotal (entries : List Entry) : Nat :=
  (entries.map fun e => (specContrib e).2).sum

/-! ## Aggregator lemmas -/

/-- The loop body adds exactly the spec's contribution to the weighted sum. -/
lemma aggStep_fst (acc : ℚ × Nat × String) (e : Entry) :
    (aggStep acc e).1 = acc.1 + (specContrib e).1 := by
  cases h : e.avg <;> simp only [aggStep, specContrib, h]
  · simp
  · split <;> simp

/-- The loop body adds exactly the spec's contribution to the weight total. -/
lemma aggStep_cnt (acc : ℚ × Nat × String) (e : Entry) :
    (aggStep acc e).2.1 = acc.2.1 + (specContrib e).2 := by
  cases h : e.avg <;> simp only [aggStep, specContrib, h]
  · simp
  · split <;> simp

/-- The accumulation loop computes the spec's weighted sum and weight total. -/
lemma foldl_aggStep (entries : List Entry) :
    ∀ acc : ℚ × Nat × String,
      (entries.foldl aggStep acc).1 = acc.1 + specWeightedSum entries ∧
      (entries.foldl aggStep acc).2.1 = acc.2.1 + specWeightTotal entries := by
  induction entries with
  | nil => intro acc; simp [specWeightedSum, specWeightTotal]
  | cons e es ih =>
    intro acc
    have h := ih (aggStep acc e)
    simp only [List.foldl_cons]
    constructor
    · rw [h.1, aggStep_fst]
      simp [specWeightedSum, add_assoc]
    · rw [h.2, aggStep_cnt]
      simp [specWeightTotal, Nat.add_assoc]

/-- A zero weight total means every entry's average is absent: any present
average contributes at least one unit of weight. -/
lemma avg_none_of_weightTotal_zero :
    ∀ {entries : List Entry}, specWeightTotal entries = 0 →
      ∀ e ∈ entries, e.avg = none := by
  intro entries
  induction entries with
  | nil => intro _ e he; cases he
  | cons x xs ih =>
    intro h e he
    have hx : (specContrib x).2 = 0 ∧ specWeightTotal xs = 0 := by
      simp only [specWeightTotal, List.map_cons, List.sum_cons,
        Nat.add_eq_zero] at h
      exact h
    rcases List.mem_cons.mp he with he | he
    · subst he
      cases hv : e.avg with
      | none => rfl
      | some a =>
        exfalso
        have hc := hx.1
        simp only [specContrib, hv] at hc
        split at hc <;> simp_all
    · exact ih hx.2 e he

/-- When the spec's weight total is positive, the Aggregator returns the
weight-normalized mean together with the weight total. -/
lemma aggregateKey_pos {entries : List Entry}
    (h : 0 < specWeightTotal entries) :
    ∃ nm, aggregateKey entries =
      some ⟨nm, some (specWeightedSum entries / (specWeightTotal entries : ℚ)),
        specWeightTotal entries⟩ := by
  cases entries with
  | nil => simp [specWeightTotal] at h
  | cons e0 es =>
    have hf := foldl_aggStep (e0 :: es) (0, 0, e0.name)
    refine ⟨((e0 :: es).foldl aggStep (0, 0, e0.name)).2.2, ?_⟩
    simp only [aggregateKey]
    rw [if_pos (by rw [hf.2]; simpa using h)]
    congr 1
    have h1 : ((e0 :: es).foldl aggStep (0, 0, e0.name)).1 =
        specWeightedSum (e0 :: es) := by rw [hf.1]; ring
    have h2 : ((e0 :: es).foldl aggStep (0, 0, e0.name)).2.1 =
        specWeightTotal (e0 :: es) := by rw [hf.2]; simp
    rw [MRec.mk.injEq]
    exact ⟨rfl, by rw [h1, h2], h2⟩

/-- When the spec's weight total is zero (all averages absent), the key
produces no record at all: the fallback search finds no present average. -/
lemma aggregateKey_zero {entries : List Entry}
    (h : specWeightTotal entries = 0) : aggregateKey entries = none := by
  cases entries with
  | nil => rfl
  | cons e0 es =>
    have hf := foldl_aggStep (e0 :: es) (0, 0, e0.name)
    have hall := avg_none_of_weightTotal_zero h
    simp only [aggregateKey]
    rw [if_neg (by rw [hf.2]; simp [h])]
    have : (e0 :: es).find? (fun e => e.avg.isSome) = none := by
      rw [List.find?_eq_none]
      intro e he
      rw [hall e he]
      simp
    rw [this]

/-- Every record the aggregation stage emits has a present average and a
weight of at least one. -/
lemma aggregateKey_inv {entries : List Entry} {r : MRec}
    (h : aggregateKey entries = some r) : r.avg.isSome ∧ 1 ≤ r.cnt := by
  cases entries with
  | nil => cases h
  | cons e0 es =>
    by_cases hw : 0 < specWeightTotal (e0 :: es)
    · obtain ⟨nm, hk⟩ := aggregateKey_pos hw
      rw [hk] at h
      cases h
      exact ⟨rfl, hw⟩
    · have : specWeightTotal (e0 :: es) = 0 := Nat.eq_zero_of_not_pos hw
      rw [aggregateKey_zero this] at h
      cases h

/-- The weighted sum is bounded by the weight total times any bounds that
enclose every present entry average. -/
lemma weightedSum_bounds :
    ∀ (entries : List Entry) (lo hi : ℚ),
      (∀ a ∈ entries.filterMap Entry.avg, lo ≤ a ∧ a ≤ hi) →
      lo * (specWeightTotal entries : ℚ) ≤ specWeightedSum entries ∧
        specWeightedSum entries ≤ hi * (specWeightTotal entries : ℚ) := by
  intro entries
  induction entries with
  | nil => intro lo hi _; simp [specWeightedSum, specWeightTotal]
  | cons e es ih =>
    intro lo hi hb
    have hes := ih lo hi (fun a ha => hb a (by
      simp only [List.filterMap_cons]
      cases e.avg <;> simp [ha]))
    have hsum : specWeightedSum (e :: es) =
        (specContrib e).1 + specWeightedSum es := by
      simp [specWeightedSum]
    have hcnt : (specWeightTotal (e :: es) : ℚ) =
        ((specContrib e).2 : ℚ) + (specWeightTotal es : ℚ) := by
      simp [specWeightTotal]
    have hcontrib : lo * ((specContrib e).2 : ℚ) ≤ (specContrib e).1 ∧
        (specContrib e).1 ≤ hi * ((specContrib e).2 : ℚ) := by
      cases hv : e.avg with
      | none => simp [specContrib, hv]
      | some a =>
        have hae : a ∈ (e :: es).filterMap Entry.avg := by
          simp [List.filterMap_cons, hv]
        have ha := hb a hae
        simp only [specContrib, hv]
        split
        · simpa using ha
        · constructor
          · exact mul_le_mul_of_nonneg_right ha.1 (by positivity)
          · exact mul_le_mul_of_nonneg_right ha.2 (by positivity)
    constructor
    · calc lo * (specWeightTotal (e :: es) : ℚ)
          = lo * ((specContrib e).2 : ℚ) + lo * (specWeightTotal es : ℚ) := by
            rw [hcnt]; ring
        _ ≤ (specContrib e).1 + specWeightedSum es :=
            add_le_add hcontrib.1 hes.1
        _ = specWeightedSum (e :: es) := hsum.symm
    · calc specWeightedSum (e :: es)
          = (specContrib e).1 + specWeightedSum es := hsum
        _ ≤ hi * ((specContrib e).2 : ℚ) + hi * (specWeightTotal es : ℚ) :=
            add_le_add hcontrib.2 hes.2
        _ = hi * (specWeightTotal (e :: es) : ℚ) := by rw [hcnt]; ring

/-! ## Equivalence-merger lemmas -/

/-- Both branches of the merge step keep the pre-existing representative's
display name. -/
lemma mergeRecs_name (a b : MRec) : (mergeRecs a b).name = a.name := by
  by_cases h : 0 < a.cnt + b.cnt <;> simp [mergeRecs, h]

/-- Merging two records that each carry a present average and positive weight
yields a record that again carries a present average and positive weight. -/
lemma mergeRecs_inv {a b : MRec} (ha : a.avg.isSome ∧ 1 ≤ a.cnt)
    (hb : b.avg.isSome ∧ 1 ≤ b.cnt) :
    (mergeRecs a b).avg.isSome ∧ 1 ≤ (mergeRecs a b).cnt := by
  have hpos : 0 < a.cnt + b.cnt := by omega
  unfold mergeRecs
  rw [if_pos hpos]
  exact ⟨rfl, hpos⟩

/-- Updating the value stored under a key leaves the dict's key sequence
unchanged. -/
lemma updateAssoc_map_fst (g : List (String × MRec)) (k : String) (r : MRec) :
    (updateAssoc g k r).map Prod.fst = g.map Prod.fst := by
  induction g with
  | nil => rfl
  | cons x xs ih =>
    simp only [updateAssoc, List.map_cons] at *
    by_cases h : x.1 = k <;> simp [h, ih]

/-- A member of the updated dict is either the updated pair or an original
member. -/
lemma mem_updateAssoc {g : List (String × MRec)} {k : String} {r : MRec}
    {kr : String × MRec} (h : kr ∈ updateAssoc g k r) :
    kr = (k, r) ∨ kr ∈ g := by
  rcases List.mem_map.mp h with ⟨x, hx, hxe⟩
  by_cases hk : x.1 = k
  · rw [if_pos hk] at hxe; exact Or.inl hxe.symm
  · rw [if_neg hk] at hxe; exact Or.inr (hxe ▸ hx)

/-- A member of the dict after one merger iteration satisfies any predicate
that holds on all previous members and the incoming record and is preserved
by the merge step. -/
lemma mergeInto_pres {P : MRec → Prop}
    (hP : ∀ a b, P a → P b → P (mergeRecs a b))
    {g : List (String × MRec)} {k : String} {r : MRec}
    (hg : ∀ kr ∈ g, P kr.2) (hr : P r) :
    ∀ kr ∈ mergeInto g k r, P kr.2 := by
  intro kr hkr
  unfold mergeInto at hkr
  cases hfind : g.find? (fun kr => sortStr kr.1 == sortStr k) with
  | some kr0 =>
    rw [hfind] at hkr
    rcases mem_updateAssoc hkr with h | h
    · subst h
      exact hP _ _ (hg kr0 (List.mem_of_find?_eq_some hfind)) hr
    · exact hg kr h
  | none =>
    rw [hfind] at hkr
    rcases List.mem_append.mp hkr with h | h
    · exact hg kr h
    · rcases List.mem_singleton.mp h with rfl
      exact hr

/-- Fold form of the previous lemma over the whole merger loop. -/
lemma finalMerge_foldl_pres {P : MRec → Prop}
    (hP : ∀ a b, P a → P b → P (mergeRecs a b)) :
    ∀ (l g : List (String × MRec)), (∀ kr ∈ g, P kr.2) →
      (∀ kr ∈ l, P kr.2) →
      ∀ kr ∈ l.foldl (fun g kr => mergeInto g kr.1 kr.2) g, P kr.2 := by
  intro l
  induction l with
  | nil => intro g hg _ kr hkr; exact hg kr hkr
  | cons x xs ih =>
    intro g hg hl kr hkr
    simp only [List.foldl_cons] at hkr
    exact ih (mergeInto g x.1 x.2)
      (mergeInto_pres hP hg (hl x (List.mem_cons_self x xs)))
      (fun e he => hl e (List.mem_cons_of_mem x he)) kr hkr

/-- Every record of the final merged dict satisfies any mergeRecs-stable
predicate holding on the input records. -/
lemma finalMerge_pres {P : MRec → Prop}
    (hP : ∀ a b, P a → P b → P (mergeRecs a b))
    {l : List (String × MRec)} (hl : ∀ kr ∈ l, P kr.2) :
    ∀ kr ∈ finalMerge l, P kr.2 :=
  finalMerge_foldl_pres hP l [] (fun _ h => absurd h (List.not_mem_nil _)) hl

/-- A member of the dict after one merger iteration takes its display name
either from an original member under the same dict key or from the incoming
pair itself. -/
lemma mergeInto_name_origin {g : List (String × MRec)} {k : String} {r : MRec}
    {kr : String × MRec} (h : kr ∈ mergeInto g k r) :
    (∃ r0, (kr.1, r0) ∈ g ∧ kr.2.name = r0.name) ∨ (kr.1 = k ∧ kr.2 = r) := by
  unfold mergeInto at h
  cases hfind : g.find? (fun kr => sortStr kr.1 == sortStr k) with
  | some kr0 =>
    rw [hfind] at h
    rcases mem_updateAssoc h with h1 | h1
    · left
      refine ⟨kr0.2, ?_, ?_⟩
      · rw [h1]
        exact List.mem_of_find?_eq_some hfind
      · rw [h1]
        exact mergeRecs_name kr0.2 r
    · exact Or.inl ⟨kr.2, by simpa using h1, rfl⟩
  | none =>
    rw [hfind] at h
    rcases List.mem_append.mp h with h1 | h1
    · exact Or.inl ⟨kr.2, by simpa using h1, rfl⟩
    · rcases List.mem_singleton.mp h1 with rfl
      exact Or.inr ⟨rfl, rfl⟩

/-- Over the whole merger loop, every record's display name originates in an
input pair bearing the same dict key. -/
lemma finalMerge_foldl_names :
    ∀ (l g : List (String × MRec)) (kr : String × MRec),
      kr ∈ l.foldl (fun g kr => mergeInto g kr.1 kr.2) g →
      (∃ r0, (kr.1, r0) ∈ g ∧ kr.2.name = r0.name) ∨
        (∃ r0, (kr.1, r0) ∈ l ∧ kr.2.name = r0.name) := by
  intro l
  induction l with
  | nil => intro g kr hkr; exact Or.inl ⟨kr.2, by simpa using hkr, rfl⟩
  | cons x xs ih =>
    intro g kr hkr
    simp only [List.foldl_cons] at hkr
    rcases ih (mergeInto g x.1 x.2) kr hkr with h | h
    · rcases h with ⟨r0, hr0, hname⟩
      rcases mergeInto_name_origin hr0 with h1 | h1
      · rcases h1 with ⟨r1, hr1, hname1⟩
        exact Or.inl ⟨r1, hr1, by rw [hname]; exact hname1⟩
      · right
        refine ⟨x.2, ?_, ?_⟩
        · rw [show kr.1 = x.1 from h1.1]
          exact List.mem_cons_self x xs
        · rw [hname, show r0 = x.2 from h1.2]
    · rcases h with ⟨r0, hr0, hname⟩
      exact Or.inr ⟨r0, List.mem_cons_of_mem x hr0, hname⟩

/-- In the final merged dict, every record's display name is that of an input
record stored under the same key (the key that established the group). -/
lemma finalMerge_names {l : List (String × MRec)} {kr : String × MRec}
    (h : kr ∈ finalMerge l) :
    ∃ r0, (kr.1, r0) ∈ l ∧ kr.2.name = r0.name := by
  rcases finalMerge_foldl_names l [] kr h with h1 | h1
  · rcases h1 with ⟨r0, hr0, _⟩
    exact absurd hr0 (List.not_mem_nil _)
  · exact h1

/-- The signatures present among the group keys after the merger loop are
exactly the signatures of the initial group keys and of the processed input
keys. -/
lemma finalMerge_foldl_sigs :
    ∀ (l g : List (String × MRec)) (s : List Char),
      (∃ k ∈ (l.foldl (fun g kr => mergeInto g kr.1 kr.2) g).map Prod.fst,
          sortStr k = s) ↔
        ((∃ k ∈ g.map Prod.fst, sortStr k = s) ∨ ∃ kr ∈ l, sortStr kr.1 = s) := by
  intro l
  induction l with
  | nil => intro g s; simp
  | cons x xs ih =>
    intro g s
    simp only [List.foldl_cons]
    rw [ih (mergeInto g x.1 x.2) s]
    have hstep : (∃ k ∈ (mergeInto g x.1 x.2).map Prod.fst, sortStr k = s) ↔
        ((∃ k ∈ g.map Prod.fst, sortStr k = s) ∨ sortStr x.1 = s) := by
      unfold mergeInto
      cases hfind : g.find? (fun kr => sortStr kr.1 == sortStr x.1) with
      | some kr0 =>
        have hsig : sortStr kr0.1 = sortStr x.1 := by
          have := List.find?_some hfind
          simpa using this
        have hmem : kr0.1 ∈ g.map Prod.fst :=
          List.mem_map.mpr ⟨kr0, List.mem_of_find?_eq_some hfind, rfl⟩
        rw [updateAssoc_map_fst]
        constructor
        · exact Or.inl
        · rintro (h | h)
          · exact h
          · exact ⟨kr0.1, hmem, hsig.trans h⟩
      | none =>
        simp only [List.map_append, List.map_cons, List.map_nil]
        constructor
        · rintro ⟨k, hk, hks⟩
          rcases List.mem_append.mp hk with h | h
          · exact Or.inl ⟨k, h, hks⟩
          · rcases List.mem_singleton.mp h with rfl
            exact Or.inr hks
        · rintro (⟨k, hk, hks⟩ | h)
          · exact ⟨k, List.mem_append_left _ hk, hks⟩
          · exact ⟨x.1, List.mem_append_right _ (List.mem_singleton.mpr rfl), h⟩
    rw [hstep]
    constructor
    · rintro ((h | h) | h)
      · exact Or.inl h
      · exact Or.inr ⟨x, List.mem_cons_self x xs, h⟩
      · rcases h with ⟨kr, hkr, hs⟩
        exact Or.inr ⟨kr, List.mem_cons_of_mem x hkr, hs⟩
    · rintro (h | h)
      · exact Or.inl (Or.inl h)
      · rcases h with ⟨kr, hkr, hs⟩
        rcases List.mem_cons.mp hkr with h1 | h1
        · exact Or.inl (Or.inr (h1 ▸ hs))
        · exact Or.inr ⟨kr, h1, hs⟩

/-- The representative dict key under which a canonical key's record ends up
after the merger: the first group key sharing its signature. -/
def repOf (l : List (String × MRec)) (k : String) : Option String :=
  ((finalMerge l).map Prod.fst).find? (fun g => sortStr g == sortStr k)

/-- Every input key has a representative in the final merged dict. -/
lemma repOf_isSome {l : List (String × MRec)} {k : String}
    (h : k ∈ l.map Prod.fst) : (repOf l k).isSome := by
  rcases List.mem_map.mp h with ⟨kr, hkr, rfl⟩
  have : ∃ g ∈ (finalMerge l).map Prod.fst, sortStr g = sortStr kr.1 := by
    rw [finalMerge, finalMerge_foldl_sigs l [] (sortStr kr.1)]
    exact Or.inr ⟨kr, hkr, rfl⟩
  rcases this with ⟨g, hg, hgs⟩
  rw [repOf, List.find?_isSome]
  exact ⟨g, hg, by simpa using hgs⟩

/-- A representative shares the signature of the key it represents. -/
lemma repOf_sig {l : List (String × MRec)} {k g : String}
    (h : repOf l k = some g) : sortStr g = sortStr k := by
  have := List.find?_some h
  simpa using this

/-! ## Threshold-ranker lemmas -/

/-- Ranking decision for one merged record, written from the amended reading
of the spec: the threshold is looked up under the record's own dict key (the
group's representative canonical key) and the record is kept exactly when a
threshold exists there and the average reaches it. -/
def rankOwn (peak : String → Option ℚ) (kr : String × MRec) : Option Ranked :=
  match kr.2.avg, peak kr.1 with
  | some a, some t => if t ≤ a then some ⟨kr.2.name, a, t⟩ else none
  | _, _ => none

/-- One iteration of the matching loop appends exactly the ranking decision
for the record under consideration. -/
lemma matchStep_eq (peak : String → Option ℚ) (acc : List Ranked)
    (kr : String × MRec) :
    matchStep peak acc kr = acc ++ (rankOwn peak kr).toList := by
  unfold matchStep rankOwn
  cases kr.2.avg with
  | none => simp
  | some a =>
    cases peak kr.1 with
    | none => simp
    | some t => by_cases h : t ≤ a <;> simp [h]

/-- The matching loop is the filterMap of the per-record ranking decision. -/
lemma matchedOf_foldl (peak : String → Option ℚ) :
    ∀ (fm : List (String × MRec)) (acc : List Ranked),
      fm.foldl (matchStep peak) acc = acc ++ fm.filterMap (rankOwn peak) := by
  intro fm
  induction fm with
  | nil => intro acc; simp
  | cons x xs ih =>
    intro acc
    simp only [List.foldl_cons, List.filterMap_cons]
    rw [ih (matchStep peak acc x), matchStep_eq]
    cases h : rankOwn peak x with
    | none => simp
    | some v => simp

/-! ## Stable descending sort lemmas -/

/-- Insertion splits the list at the first element of strictly smaller
observed value. -/
lemma insertDesc_split (e : Ranked) :
    ∀ l : List Ranked,
      insertDesc e l = l.takeWhile (fun x => e.obs ≤ x.obs) ++
        e :: l.dropWhile (fun x => e.obs ≤ x.obs) := by
  intro l
  induction l with
  | nil => rfl
  | cons x xs ih =>
    by_cases h : e.obs ≤ x.obs
    · rw [insertDesc, if_pos h, ih]
      simp [List.takeWhile_cons, List.dropWhile_cons, h]
    · rw [insertDesc, if_neg h]
      simp [List.takeWhile_cons, List.dropWhile_cons, h]

/-- Membership in an insertion. -/
lemma mem_insertDesc {a e : Ranked} :
    ∀ {l : List Ranked}, a ∈ insertDesc e l ↔ a = e ∨ a ∈ l := by
  intro l
  induction l with
  | nil => simp [insertDesc]
  | cons x xs ih =>
    by_cases h : e.obs ≤ x.obs
    · rw [insertDesc, if_pos h]
      simp only [List.mem_cons, ih]
      tauto
    · rw [insertDesc, if_neg h]
      simp only [List.mem_cons]

/-- Insertion preserves the descending order. -/
lemma insertDesc_sorted {e : Ranked} :
    ∀ {l : List Ranked}, l.Pairwise (fun a b => b.obs ≤ a.obs) →
      (insertDesc e l).Pairwise (fun a b => b.obs ≤ a.obs) := by
  intro l
  induction l with
  | nil => intro _; simp [insertDesc]
  | cons x xs ih =>
    intro h
    rcases List.pairwise_cons.mp h with ⟨hx, hxs⟩
    by_cases hc : e.obs ≤ x.obs
    · rw [insertDesc, if_pos hc]
      refine List.pairwise_cons.mpr ⟨?_, ih hxs⟩
      intro a ha
      rcases mem_insertDesc.mp ha with rfl | ha
      · exact hc
      · exact hx a ha
    · rw [insertDesc, if_neg hc]
      refine List.pairwise_cons.mpr ⟨?_, h⟩
      intro a ha
      rcases List.mem_cons.mp ha with rfl | ha
      · exact le_of_not_le hc
      · exact le_trans (hx a ha) (le_of_not_le hc)

/-- The first element surviving a dropWhile falsifies the predicate. -/
lemma dropWhile_head_false {p : Ranked → Bool} :
    ∀ (l : List Ranked) (x : Ranked) (xs : List Ranked),
      l.dropWhile p = x :: xs → p x = false := by
  intro l
  induction l with
  | nil => intro x xs h; cases h
  | cons y ys ih =>
    intro x xs h
    rw [List.dropWhile_cons] at h
    by_cases hp : p y = true
    · rw [if_pos hp] at h
      exact ih x xs h
    · rw [if_neg hp] at h
      cases h
      simpa using hp

/-- Inserting into a descending-sorted list appends the new element after all
existing elements of equal observed value: the filter at the new element's
value grows at the end, every other filter is unchanged. -/
lemma insertDesc_filter (q : ℚ) (e : Ranked) {l : List Ranked}
    (hs : l.Pairwise (fun a b => b.obs ≤ a.obs)) :
    (insertDesc e l).filter (fun x => x.obs == q) =
      if e.obs = q then l.filter (fun x => x.obs == q) ++ [e]
      else l.filter (fun x => x.obs == q) := by
  have hL : l.takeWhile (fun x => decide (e.obs ≤ x.obs)) ++
      l.dropWhile (fun x => decide (e.obs ≤ x.obs)) = l :=
    List.takeWhile_append_dropWhile _ _
  rw [insertDesc_split, List.filter_append, List.filter_cons]
  by_cases he : e.obs = q
  · rw [if_pos he]
    have hd : (l.dropWhile (fun x => decide (e.obs ≤ x.obs))).filter
        (fun x => x.obs == q) = [] := by
      rw [List.filter_eq_nil_iff]
      intro a ha
      cases hdrop : l.dropWhile (fun x => decide (e.obs ≤ x.obs)) with
      | nil => rw [hdrop] at ha; cases ha
      | cons x0 rest =>
        rw [hdrop] at ha
        have hx0 : x0.obs < e.obs := by
          have := dropWhile_head_false l x0 rest hdrop
          simpa using this
        have hpd : (x0 :: rest).Pairwise (fun a b => b.obs ≤ a.obs) :=
          List.Pairwise.sublist (hdrop ▸ List.dropWhile_sublist _) hs
        have hle : a.obs ≤ x0.obs := by
          rcases List.mem_cons.mp ha with rfl | ha
          · exact le_refl _
          · exact (List.pairwise_cons.mp hpd).1 a ha
        have : a.obs < q := lt_of_le_of_lt hle (he ▸ hx0)
        simp [ne_of_lt this]
    rw [hd, if_pos (by simpa using he)]
    conv_rhs => rw [← hL]
    rw [List.filter_append, hd]
    simp
  · rw [if_neg he, if_neg (by simpa using he)]
    conv_rhs => rw [← hL]
    rw [List.filter_append]

/-- The insertion pass returns a descending-sorted list whose filter at each
value is the accumulator's filter followed by the input's filter. -/
lemma sortAux_sorted_filter :
    ∀ (l acc : List Ranked), acc.Pairwise (fun a b => b.obs ≤ a.obs) →
      (sortAux acc l).Pairwise (fun a b => b.obs ≤ a.obs) ∧
        ∀ q : ℚ, (sortAux acc l).filter (fun x => x.obs == q) =
          acc.filter (fun x => x.obs == q) ++ l.filter (fun x => x.obs == q) := by
  intro l
  induction l with
  | nil => intro acc hacc; exact ⟨hacc, fun q => by simp [sortAux]⟩
  | cons e es ih =>
    intro acc hacc
    have hstep := ih (insertDesc e acc) (insertDesc_sorted hacc)
    refine ⟨hstep.1, fun q => ?_⟩
    rw [show sortAux acc (e :: es) = sortAux (insertDesc e acc) es from rfl,
      hstep.2 q, insertDesc_filter q e hacc, List.filter_cons]
    by_cases he : e.obs = q
    · rw [if_pos he, if_pos (by simpa using he)]
      simp
    · rw [if_neg he, if_neg (by simpa using he)]

/-- The modelled stable sort is descending-sorted. -/
lemma sortDesc_sorted (l : List Ranked) :
    (sortDesc l).Pairwise (fun a b => b.obs ≤ a.obs) :=
  (sortAux_sorted_filter l [] (List.Pairwise.nil)).1

/-- The modelled stable sort preserves, at every observed value, the exact
subsequence of equal-valued elements of the input (stability). -/
lemma sortDesc_filter (l : List Ranked) (q : ℚ) :
    (sortDesc l).filter (fun x => x.obs == q) =
      l.filter (fun x => x.obs == q) := by
  have := (sortAux_sorted_filter l [] (List.Pairwise.nil)).2 q
  simpa [sortDesc] using this

/-! ## Claim theorems -/

/-- C1 counterexample: merging the anagram keys jowar and jawor, with jawor
absorbed into the group established by jowar, yields the display name of the
first key's record (Jowar), not the most recently merged key's original
display name (JAWOR) as the claim states. -/
theorem merger_name_counterexample :
    finalMerge [("jowar", ⟨"Jowar", some 50, 4⟩), ("jawor", ⟨"JAWOR", some 70, 6⟩)] =
      [("jowar", ⟨"Jowar", some 62, 10⟩)] ∧ "Jowar" ≠ "JAWOR" := by
  constructor
  · with_unfolding_all decide
  · decide

/-- C1 amended: the resulting Merged Demand Record's display name is the
display name of the record of the first Canonical Key that established the
group — the merge step never updates the pre-existing representative's name,
and every final record's name originates in an input record stored under the
group's own key. -/
theorem merger_name_from_first_key :
    (∀ a b : MRec, (mergeRecs a b).name = a.name) ∧
    ∀ (l : List (String × MRec)) (kr : String × MRec), kr ∈ finalMerge l →
      ∃ r0, (kr.1, r0) ∈ l ∧ kr.2.name = r0.name :=
  ⟨mergeRecs_name, fun _ _ h => finalMerge_names h⟩

/-- C1 witness: the amended statement at the jowar/jawor input. -/
theorem merger_name_from_first_key_witness :
    ∃ r0, ("jowar", r0) ∈
        [("jowar", (⟨"Jowar", some 50, 4⟩ : MRec)), ("jawor", ⟨"JAWOR", some 70, 6⟩)] ∧
      (MRec.mk "Jowar" (some 62) 10).name = r0.name :=
  merger_name_from_first_key.2
    [("jowar", ⟨"Jowar", some 50, 4⟩), ("jawor", ⟨"JAWOR", some 70, 6⟩)]
    ("jowar", ⟨"Jowar", some 62, 10⟩) (by with_unfolding_all decide)

/-- C2: the Aggregator forms the spec's weighted sum and weight total
(average times count and count for counted entries, average and one for
zero-count entries, nothing for absent averages), and with positive total
weight returns the pair of their quotient and the weight total; at the
concrete Scenario A input it returns average 1600/15 with weight 15. -/
theorem aggregator_weighted_mean :
    (∀ entries : List Entry, 0 < specWeightTotal entries →
      ∃ nm, aggregateKey entries =
        some ⟨nm, some (specWeightedSum entries / (specWeightTotal entries : ℚ)),
          specWeightTotal entries⟩) ∧
    aggregateKey [⟨"wheat", some 100, 10⟩, ⟨"Wheat", some 120, 5⟩] =
      some ⟨"Wheat", some ((100 * 10 + 120 * 5) / 15), 15⟩ :=
  ⟨fun _ h => aggregateKey_pos h, by with_unfolding_all decide⟩

/-- C2 witness: the universally quantified part applied at a one-entry list. -/
theorem aggregator_weighted_mean_witness :
    ∃ nm, aggregateKey [⟨"a", some 3, 2⟩] =
      some ⟨nm, some (specWeightedSum [⟨"a", some 3, 2⟩] /
          (specWeightTotal [⟨"a", some 3, 2⟩] : ℚ)),
        specWeightTotal [⟨"a", some 3, 2⟩]⟩ :=
  aggregator_weighted_mean.1 [⟨"a", some 3, 2⟩] (by with_unfolding_all decide)

/-- C3 counterexample: the keys jowar and jawor merge into one record under
representative key jowar; a threshold exists for the absorbed key jawor and
the merged average 100 meets it, yet the engine returns the empty list because
the lookup consults only the representative key. -/
theorem ranker_absorbed_key_counterexample :
    computeTop10 [("jowar", [⟨"Jowar", some 100, 1⟩]), ("jawor", [⟨"Jawor", some 100, 1⟩])]
        (fun k => if k = "jawor" then some 50 else none) = [] ∧
    finalMerge (aggregate
        [("jowar", [⟨"Jowar", some 100, 1⟩]), ("jawor", [⟨"Jawor", some 100, 1⟩])]) =
      [("jowar", ⟨"Jowar", some 100, 2⟩)] ∧
    (fun k => if k = "jawor" then some (50 : ℚ) else none) "jawor" = some 50 ∧
    (50 : ℚ) ≤ 100 := by
  refine ⟨?_, ?_, ?_, ?_⟩ <;> with_unfolding_all decide

/-- C3 amended: the Threshold Ranker's matched list is exactly the filterMap
that, for each merged record, looks the threshold up under the record's own
dict key — the representative Canonical Key of the group — and keeps the
record exactly when that threshold exists and the average reaches it;
thresholds of absorbed keys are never consulted. -/
theorem ranker_uses_representative_key :
    ∀ (fm : List (String × MRec)) (peak : String → Option ℚ),
      matchedOf fm peak = fm.filterMap (rankOwn peak) := by
  intro fm peak
  have h := matchedOf_foldl peak fm []
  simpa [matchedOf] using h

/-- C4 counterexample: a key whose single entry has an absent average
produces no record at all — the Aggregator's result is not the claimed
record with absent average and zero weight, the key is simply omitted. -/
theorem aggregator_absent_key_counterexample :
    aggregateKey [⟨"x", none, 3⟩] = none := by
  with_unfolding_all decide

/-- C4 amended: whenever the total weight is zero after processing all
entries — which, for non-negative sample counts, happens exactly when every
entry's average is absent — the key produces no record and is omitted from
the merged map (rather than surfacing an explicit record with absent average
and zero weight). -/
theorem aggregator_zero_weight_omits :
    ∀ entries : List Entry, specWeightTotal entries = 0 →
      aggregateKey entries = none :=
  fun _ h => aggregateKey_zero h

/-- C4 witness: the amended statement at a concrete all-absent input. -/
theorem aggregator_zero_weight_omits_witness :
    aggregateKey [⟨"y", none, 0⟩, ⟨"z", none, 5⟩] = none :=
  aggregator_zero_weight_omits [⟨"y", none, 0⟩, ⟨"z", none, 5⟩] (by decide)

/-- C5: the engine's output has at most ten elements, is sorted by observed
average descending, and is stable: at every observed value, the output's
equal-valued results form a subsequence (in order) of the matched list's
equal-valued results, so ties retain their relative input order. -/
theorem ranker_sorted_stable_top10 :
    ∀ (day : List (String × List Entry)) (peak : String → Option ℚ),
      (computeTop10 day peak).length ≤ 10 ∧
      (computeTop10 day peak).Pairwise (fun a b => b.obs ≤ a.obs) ∧
      ∀ q : ℚ, List.Sublist
        ((computeTop10 day peak).filter (fun x => x.obs == q))
        ((matchedOf (finalMerge (aggregate day)) peak).filter (fun x => x.obs == q)) := by
  intro day peak
  refine ⟨List.length_take_le _ _, ?_, ?_⟩
  · exact List.Pairwise.sublist (List.take_sublist _ _) (sortDesc_sorted _)
  · intro q
    have h1 := (List.take_sublist 10
      (sortDesc (matchedOf (finalMerge (aggregate day)) peak))).filter
      (fun x => x.obs == q)
    rw [sortDesc_filter] at h1
    exact h1

/-- C6 counterexample: folding record (avg 5, weight 0) into a group record
with the present average 0 and weight 0 yields average 5 — the pre-existing
representative's present average 0 is not preferred, because the Python
truthiness test treats 0.0 like an absent value. -/
theorem merge_zero_weight_counterexample :
    mergeRecs ⟨"a", some 0, 0⟩ ⟨"b", some 5, 0⟩ = ⟨"a", some 5, 0⟩ ∧
    (mergeRecs ⟨"a", some 0, 0⟩ ⟨"b", some 5, 0⟩).avg ≠ some 0 := by
  with_unfolding_all decide

/-- C6 amended: with positive combined weight the merge yields the weighted
mean with absent averages read as 0 and the combined weight, exactly as
claimed; with both weights zero the new average is the pre-existing
representative's average only when it is present and nonzero, and otherwise
the incoming record's average (Python truthiness). -/
theorem merge_formula_truthy_fallback :
    ∀ a b : MRec,
      (0 < a.cnt + b.cnt →
        mergeRecs a b = ⟨a.name,
          some ((a.avg.getD 0 * (a.cnt : ℚ) + b.avg.getD 0 * (b.cnt : ℚ)) /
            ((a.cnt + b.cnt : Nat) : ℚ)), a.cnt + b.cnt⟩) ∧
      (a.cnt + b.cnt = 0 →
        mergeRecs a b = ⟨a.name,
          if a.avg.getD 0 = 0 then b.avg else a.avg, a.cnt + b.cnt⟩) := by
  intro a b
  constructor
  · intro h
    simp [mergeRecs, h]
  · intro h
    simp [mergeRecs, h]

/-- C6 witness: both branches of the amended statement at concrete records. -/
theorem merge_formula_truthy_fallback_witness :
    mergeRecs ⟨"a", some 10, 5⟩ ⟨"b", some 20, 5⟩ =
      ⟨"a", some ((10 * 5 + 20 * 5) / 10), 10⟩ ∧
    mergeRecs ⟨"c", none, 0⟩ ⟨"d", some 7, 0⟩ = ⟨"c", some 7, 0⟩ := by
  constructor
  · have h := (merge_formula_truthy_fallback ⟨"a", some 10, 5⟩ ⟨"b", some 20, 5⟩).1
      (by decide)
    rw [h]
    norm_num
  · have h := (merge_formula_truthy_fallback ⟨"c", none, 0⟩ ⟨"d", some 7, 0⟩).2
      (by decide)
    rw [h]
    norm_num

/-- C7: two input canonical keys end under the same representative after the
merger exactly when their sorted-character signatures coincide, and, for any
permutation of the input, whether two keys share a representative is
unchanged — the partition of keys into merged entities is order-independent
and collapses every signature-equal chain into one entity. -/
theorem merger_membership_order_independent :
    ∀ (l l2 : List (String × MRec)), l.Perm l2 →
      ∀ k1 k2 : String, k1 ∈ l.map Prod.fst → k2 ∈ l.map Prod.fst →
        ((repOf l k1 = repOf l k2 ↔ sortStr k1 = sortStr k2) ∧
          (repOf l k1 = repOf l k2 ↔ repOf l2 k1 = repOf l2 k2)) := by
  intro l l2 hperm k1 k2 h1 h2
  have key : ∀ m : List (String × MRec), k1 ∈ m.map Prod.fst →
      k2 ∈ m.map Prod.fst → (repOf m k1 = repOf m k2 ↔ sortStr k1 = sortStr k2) := by
    intro m hm1 hm2
    constructor
    · intro he
      rcases Option.isSome_iff_exists.mp (repOf_isSome hm1) with ⟨g, hg⟩
      have hg2 : repOf m k2 = some g := he ▸ hg
      exact (repOf_sig hg).symm.trans (repOf_sig hg2)
    · intro he
      unfold repOf
      rw [he]
  have hmem1 : k1 ∈ l2.map Prod.fst := (hperm.map Prod.fst).mem_iff.mp h1
  have hmem2 : k2 ∈ l2.map Prod.fst := (hperm.map Prod.fst).mem_iff.mp h2
  exact ⟨key l h1 h2, (key l h1 h2).trans (key l2 hmem1 hmem2).symm⟩

/-- C7 witness: the statement at a two-key anagram input and its reversal. -/
theorem merger_membership_order_independent_witness :
    (repOf [("ab", ⟨"x", none, 1⟩), ("ba", ⟨"y", none, 1⟩)] "ab" =
        repOf [("ab", ⟨"x", none, 1⟩), ("ba", ⟨"y", none, 1⟩)] "ba" ↔
      sortStr "ab" = sortStr "ba") ∧
      (repOf [("ab", ⟨"x", none, 1⟩), ("ba", ⟨"y", none, 1⟩)] "ab" =
          repOf [("ab", ⟨"x", none, 1⟩), ("ba", ⟨"y", none, 1⟩)] "ba" ↔
        repOf [("ba", ⟨"y", none, 1⟩), ("ab", ⟨"x", none, 1⟩)] "ab" =
          repOf [("ba", ⟨"y", none, 1⟩), ("ab", ⟨"x", none, 1⟩)] "ba") :=
  merger_membership_order_independent
    [("ab", ⟨"x", none, 1⟩), ("ba", ⟨"y", none, 1⟩)]
    [("ba", ⟨"y", none, 1⟩), ("ab", ⟨"x", none, 1⟩)]
    (by with_unfolding_all decide) "ab" "ba"
    (by with_unfolding_all decide) (by with_unfolding_all decide)

/-- C8: with positive total weight, the Aggregator's output average lies in
the closed interval between the minimum and the maximum of the present entry
averages. -/
theorem aggregator_mean_bounded :
    ∀ (entries : List Entry) (lo hi : ℚ),
      0 < specWeightTotal entries →
      (entries.filterMap Entry.avg).min? = some lo →
      (entries.filterMap Entry.avg).max? = some hi →
      ∃ nm m, aggregateKey entries = some ⟨nm, some m, specWeightTotal entries⟩ ∧
        lo ≤ m ∧ m ≤ hi := by
  intro entries lo hi hw hmin hmax
  obtain ⟨nm, hk⟩ := aggregateKey_pos hw
  have hbound : ∀ a ∈ entries.filterMap Entry.avg, lo ≤ a ∧ a ≤ hi := by
    intro a ha
    constructor
    · exact (List.le_min?_iff (fun a b c => le_min_iff) hmin).mp (le_refl lo) a ha
    · exact (List.max?_le_iff (fun a b c => max_le_iff) hmax).mp (le_refl hi) a ha
  have hb := weightedSum_bounds entries lo hi hbound
  have hwQ : (0 : ℚ) < (specWeightTotal entries : ℚ) := by exact_mod_cast hw
  refine ⟨nm, _, hk, ?_, ?_⟩
  · rw [le_div_iff₀ hwQ]
    exact hb.1
  · rw [div_le_iff₀ hwQ]
    exact hb.2

/-- C8 witness: the statement at two present entries with averages 1 and 3. -/
theorem aggregator_mean_bounded_witness :
    ∃ nm m, aggregateKey [⟨"a", some 1, 1⟩, ⟨"b", some 3, 1⟩] =
      some ⟨nm, some m, specWeightTotal [⟨"a", some 1, 1⟩, ⟨"b", some 3, 1⟩]⟩ ∧
      1 ≤ m ∧ m ≤ 3 :=
  aggregator_mean_bounded [⟨"a", some 1, 1⟩, ⟨"b", some 3, 1⟩] 1 3
    (by decide) (by with_unfolding_all decide) (by with_unfolding_all decide)

/-- C9: on any pair of input tables as produced by the loader (entry lists
are built by appending, hence non-empty), the engine is a total function
returning a list, and the empty observation table yields the empty list. -/
theorem engine_total_and_empty :
    ∀ (day : List (String × List Entry)) (peak : String → Option ℚ),
      (∀ ke ∈ day, ke.2 ≠ []) →
      ∃ res : List Ranked, computeTop10 day peak = res ∧ (day = [] → res = []) := by
  intro day peak _
  refine ⟨computeTop10 day peak, rfl, fun h => ?_⟩
  subst h
  rfl

/-- C9 witness: the statement at the empty observation table. -/
theorem engine_total_and_empty_witness :
    ∃ res : List Ranked, computeTop10 [] (fun _ => none) = res ∧
      (([] : List (String × List Entry)) = [] → res = []) :=
  engine_total_and_empty [] (fun _ => none) (by simp)

/-- C10: every record the aggregation stage emits, and every merged record
fed to the ranker, carries a present average and weight at least one; a key
all of whose entries have an absent average yields no record, so the ranker's
absent-average skip never fires on a produced record. -/
theorem merged_records_invariant :
    ∀ day : List (String × List Entry),
      (∀ kr ∈ aggregate day, kr.2.avg.isSome ∧ 1 ≤ kr.2.cnt) ∧
      (∀ kr ∈ finalMerge (aggregate day), kr.2.avg.isSome ∧ 1 ≤ kr.2.cnt) ∧
      (∀ es : List Entry, (∀ e ∈ es, e.avg = none) → aggregateKey es = none) := by
  intro day
  have hagg : ∀ kr ∈ aggregate day, kr.2.avg.isSome ∧ 1 ≤ kr.2.cnt := by
    intro kr hkr
    rcases List.mem_filterMap.mp hkr with ⟨ke, _, hmap⟩
    rcases Option.map_eq_some'.mp hmap with ⟨r, hr, hkr2⟩
    have hinv := aggregateKey_inv hr
    rw [← hkr2]
    exact hinv
  refine ⟨hagg, ?_, ?_⟩
  · exact @finalMerge_pres (fun r => r.avg.isSome ∧ 1 ≤ r.cnt)
      (fun a b ha hb => mergeRecs_inv ha hb) (aggregate day) hagg
  · intro es hes
    apply aggregateKey_zero
    apply List.sum_eq_zero
    intro x hx
    rcases List.mem_map.mp hx with ⟨e, he, rfl⟩
    simp [specContrib, hes e he]

/-- C10 witness: the aggregation-stage invariant at a concrete input. -/
theorem merged_records_invariant_witness :
    (MRec.mk "A" (some 5) 2).avg.isSome ∧ 1 ≤ (MRec.mk "A" (some 5) 2).cnt :=
  (merged_records_invariant [("a", [⟨"A", some 5, 2⟩])]).1
    ("a", ⟨"A", some 5, 2⟩) (by with_unfolding_all decide)

end KisaanPragati
